import Mathlib

/-
  Verification of the CppCommon concurrency primitives:
  SPSCRingBuffer (include/threads/spsc_ring_buffer.h),
  SpinLock (include/threads/spin_lock.h) and
  MPSCLinkedQueue (include/threads/mpsc_linked_queue.h).

  The repository ships the class declarations in the headers; the method
  bodies live in companion .inl files that are not part of the source tree
  here, so the operations are modelled from the specification's description
  of each algorithm.  Machine integers (int64_t cursors, byte values) are
  modelled as Nat: the cursors start at zero and only grow, and the spec
  describes them as monotonically increasing raw positions that are never
  wrapped in memory.  memcpy into/out of the backing array is modelled on
  List Nat with explicit offsets.
-/

set_option maxHeartbeats 1000000

/-- Modelled from the spec: the effect of `memcpy(&buffer[off], data, len)`
on a byte array: write the bytes of `data` at consecutive positions
starting at `off`. -/
def writeBytes : List Nat → Nat → List Nat → List Nat
  | buf, _, [] => buf
  | buf, off, b :: rest => writeBytes (buf.set off b) (off + 1) rest

/-- State of `CppCommon::SPSCRingBuffer` (spsc_ring_buffer.h): a fixed
byte array `buffer` of length `capacity`, and the raw monotonically
increasing cursors `head` (next read position) and `tail` (next write
position), interpreted modulo the capacity via the bitmask `capacity - 1`. -/
structure SPSCRingBuffer where
  capacity : Nat
  buffer : List Nat
  head : Nat
  tail : Nat
deriving DecidableEq

/-- The `_mask` member: `capacity - 1`, applied to a cursor with `&` to
obtain its index into the backing array. -/
def SPSCRingBuffer.mask (rb : SPSCRingBuffer) : Nat := rb.capacity - 1

/-- Modelled from the spec: `size()` is the occupied byte count computed
from the two cursors, `tail - head`. -/
def SPSCRingBuffer.size (rb : SPSCRingBuffer) : Nat := rb.tail - rb.head

/-- Modelled from the spec: `Enqueue(chunk, size)` (producer side).  Fails
with no partial write if `size` exceeds the free space
`capacity - (tail - head)`.  Otherwise copies the chunk starting at the
masked `tail` index, splitting into a first segment of length
`min(size, capacity - (tail & mask))` and a remainder copied from offset 0,
then advances the raw `tail` cursor by `size`.  The chunk argument carries
its own length, standing for the `(const void* chunk, int64_t size)` pair. -/
def SPSCRingBuffer.Enqueue (rb : SPSCRingBuffer) (chunk : List Nat) :
    Bool × SPSCRingBuffer :=
  let size := chunk.length
  if rb.capacity - (rb.tail - rb.head) < size then (false, rb)
  else
    let index := rb.tail &&& rb.mask
    let first := min size (rb.capacity - index)
    let buf1 := writeBytes rb.buffer index (chunk.take first)
    let buf2 := writeBytes buf1 0 (chunk.drop first)
    (true, { rb with buffer := buf2, tail := rb.tail + size })

/-- Result of a `Dequeue` call: the boolean return value, the bytes written
through the caller's `chunk` pointer, the value left in the by-reference
`size` parameter, and the ring buffer state after the call. -/
structure DequeueResult where
  ok : Bool
  out : List Nat
  sizeOut : Nat
  state : SPSCRingBuffer
deriving DecidableEq

/-- Modelled from the spec: `Dequeue(chunk, size)` (consumer side).  `size`
is on input the caller's buffer capacity and on output the actual byte
count.  Fails if the buffer is empty (`tail - head = 0`).  Otherwise copies
`min(size, tail - head)` bytes starting at the masked `head` index,
splitting the read symmetrically with enqueue (first segment
`min(size, capacity - (head & mask))`, remainder from offset 0), and
advances the raw `head` cursor by the consumed amount. -/
def SPSCRingBuffer.Dequeue (rb : SPSCRingBuffer) (sizeIn : Nat) : DequeueResult :=
  let available := rb.tail - rb.head
  if available = 0 then ⟨false, [], sizeIn, rb⟩
  else
    let size := min sizeIn available
    let index := rb.head &&& rb.mask
    let first := min size (rb.capacity - index)
    let out1 := (rb.buffer.drop index).take first
    let out2 := rb.buffer.take (size - first)
    ⟨true, out1 ++ out2, size, { rb with head := rb.head + size }⟩

/-- Validity of a ring buffer state: the capacity is a power of two (the
constructor's contract), the backing array has exactly `capacity` bytes,
and the cursors satisfy `head ≤ tail` with occupied size at most the
capacity. -/
structure SPSCRingBuffer.Inv (rb : SPSCRingBuffer) : Prop where
  pow : ∃ k, rb.capacity = 2 ^ k
  len : rb.buffer.length = rb.capacity
  hle : rb.head ≤ rb.tail
  size_le : rb.tail - rb.head ≤ rb.capacity

/-- One call made against the ring buffer: an enqueue of a chunk of bytes
or a dequeue with a caller buffer capacity. -/
inductive RBOp where
  | enq : List Nat → RBOp
  | deq : Nat → RBOp
deriving DecidableEq

/-- Apply a single call to the ring buffer state. -/
def SPSCRingBuffer.applyOp (rb : SPSCRingBuffer) : RBOp → SPSCRingBuffer
  | RBOp.enq chunk => (rb.Enqueue chunk).2
  | RBOp.deq sizeIn => (rb.Dequeue sizeIn).state

/-- Apply a sequence of calls to the ring buffer state, in order. -/
def SPSCRingBuffer.applyOps (rb : SPSCRingBuffer) (ops : List RBOp) : SPSCRingBuffer :=
  ops.foldl SPSCRingBuffer.applyOp rb

/-- The `SpinLock` state is its single atomic boolean flag `_lock`
(`true` = held, `false` = free).  A newly constructed lock is free:
the header defines `SpinLock() : _lock(false) {}`. -/
def SpinLock.new : Bool := false

/-- Modelled from the spec: `TryLock()` is one atomic compare-and-swap
from free to held.  It returns the boolean result together with the flag
state after the attempt. -/
def SpinLock.tryLock (lockState : Bool) : Bool × Bool :=
  if lockState then (false, lockState) else (true, true)

/-- Helper for `tryLockSpin`: attempt number `k` observes the flag state
`env k` (the interleaved effect of other threads between attempts) and
runs `tryLock` on it; recurse while budget remains. -/
def SpinLock.tryLockSpinAux (env : Nat → Bool) : Nat → Nat → Bool
  | _, 0 => false
  | k, n + 1 =>
    if (SpinLock.tryLock (env k)).1 then true else SpinLock.tryLockSpinAux env (k + 1) n

/-- Modelled from the spec: `TryLockSpin(spin)` repeats `TryLock` up to
`spin` times, returning as soon as one attempt succeeds and false after
exhausting the budget.  `env k` is the flag value the k-th attempt
observes, so that interference by other threads between attempts is part
of the model. -/
def SpinLock.tryLockSpin (env : Nat → Bool) (spin : Nat) : Bool :=
  SpinLock.tryLockSpinAux env 0 spin

/-- A node of `CppCommon::MPSCLinkedQueue` (mpsc_linked_queue.h): the
stored value and the atomic pointer to the next node, modelled as an
optional index into an allocation heap (`none` = null). -/
structure MPSCNode (T : Type) where
  value : T
  next : Option Nat
deriving DecidableEq

/-- State of `CppCommon::MPSCLinkedQueue`: the allocation heap of nodes
(a pointer is an index into this list; nodes dequeued and freed are kept
in the heap, deallocation has no functional effect), the consumer-owned
`head` pointer (always the sentinel node) and the `tail` pointer (the last
appended node). -/
structure MPSCLinkedQueue (T : Type) where
  heap : List (MPSCNode T)
  head : Nat
  tail : Nat
deriving DecidableEq

/-- Modelled from the spec: the queue is created with one sentinel
(dummy) node holding no logical value; `head` and `tail` both point at
it. -/
def MPSCLinkedQueue.init (T : Type) [Inhabited T] : MPSCLinkedQueue T :=
  ⟨[⟨default, none⟩], 0, 0⟩

/-- Modelled from the spec: `Enqueue(item)` (producer side, sequential
semantics).  `allocOk` is the outcome of the node allocation: on failure
the call returns false and changes nothing.  On success a node holding a
copy of `item` with its next pointer cleared is allocated, `tail` is
exchanged to the new node, and the previous tail node's next pointer is
linked to it. -/
def MPSCLinkedQueue.Enqueue {T : Type} (q : MPSCLinkedQueue T) (item : T)
    (allocOk : Bool) : Bool × MPSCLinkedQueue T :=
  if allocOk then
    let nodeId := q.heap.length
    let heap1 := q.heap ++ [⟨item, none⟩]
    let heap2 :=
      match heap1.get? q.tail with
      | some prev => heap1.set q.tail ⟨prev.value, some nodeId⟩
      | none => heap1
    (true, ⟨heap2, q.head, nodeId⟩)
  else (false, q)

/-- Modelled from the spec: `Dequeue(item)` (single consumer side).  Read
the sentinel's next pointer; if null the queue is empty and the call
returns false.  Otherwise copy the next node's value out, advance `head`
to that node (which becomes the new sentinel; the old sentinel is freed,
which has no functional effect in the heap model). -/
def MPSCLinkedQueue.Dequeue {T : Type} (q : MPSCLinkedQueue T) :
    Option T × MPSCLinkedQueue T :=
  match q.heap.get? q.head with
  | none => (none, q)
  | some sentinel =>
    match sentinel.next with
    | none => (none, q)
    | some nid =>
      match q.heap.get? nid with
      | none => (none, q)
      | some node => (some node.value, ⟨q.heap, nid, q.tail⟩)

/-- The values stored in the chain of nodes hanging off node `p`
(excluding `p` itself, which is the sentinel when `p` is the head),
following next pointers, with explicit fuel for termination. -/
def MPSCLinkedQueue.chainFrom {T : Type} (heap : List (MPSCNode T)) :
    Nat → Nat → List T
  | _, 0 => []
  | p, fuel + 1 =>
    match heap.get? p with
    | none => []
    | some node =>
      match node.next with
      | none => []
      | some nid =>
        match heap.get? nid with
        | none => []
        | some nextNode => nextNode.value :: MPSCLinkedQueue.chainFrom heap nid fuel

/-- The logical contents of the queue: the chain of values reachable from
the sentinel. -/
def MPSCLinkedQueue.toList {T : Type} (q : MPSCLinkedQueue T) : List T :=
  MPSCLinkedQueue.chainFrom q.heap q.head q.heap.length

/-- Pointer reachability through next links in a node heap. -/
inductive MPSCReaches {T : Type} (heap : List (MPSCNode T)) : Nat → Nat → Prop
  | refl (p : Nat) : MPSCReaches heap p p
  | step {p q r : Nat} {node : MPSCNode T} :
      heap.get? p = some node → node.next = some q →
      MPSCReaches heap q r → MPSCReaches heap p r

/-- Well-formedness of a queue state: head and tail are live nodes, next
pointers only point forward into the heap (allocation order), the tail
node is the end of the chain, and the tail is reachable from the head. -/
structure MPSCLinkedQueue.Wf {T : Type} (q : MPSCLinkedQueue T) : Prop where
  head_lt : q.head < q.heap.length
  tail_lt : q.tail < q.heap.length
  next_mono : ∀ i node j, q.heap.get? i = some node → node.next = some j →
    i < j ∧ j < q.heap.length
  tail_last : ∀ node, q.heap.get? q.tail = some node → node.next = none
  reach : MPSCReaches q.heap q.head q.tail

/-- A single producer enqueuing each item of a list in order (every node
allocation succeeding). -/
def MPSCLinkedQueue.enqueueAll {T : Type} (q : MPSCLinkedQueue T)
    (items : List T) : MPSCLinkedQueue T :=
  items.foldl (fun acc item => (acc.Enqueue item true).2) q

/-- The single consumer performing `n` dequeues, collecting the values of
the successful ones (stopping at the first empty result). -/
def MPSCLinkedQueue.dequeueAll {T : Type} : MPSCLinkedQueue T → Nat → List T
  | _, 0 => []
  | q, n + 1 =>
    match q.Dequeue with
    | (some v, q') => v :: MPSCLinkedQueue.dequeueAll q' n
    | (none, _) => []

theorem writeBytes_length : ∀ (data buf : List Nat) (off : Nat),
    (writeBytes buf off data).length = buf.length := by
  intro data
  induction data with
  | nil => intro buf off; rfl
  | cons b rest ih =>
    intro buf off
    show (writeBytes (buf.set off b) (off + 1) rest).length = buf.length
    rw [ih, List.length_set]

theorem get?_writeBytes_lt : ∀ (data buf : List Nat) (off i : Nat), i < off →
    (writeBytes buf off data).get? i = buf.get? i := by
  intro data
  induction data with
  | nil => intro buf off i _; rfl
  | cons b rest ih =>
    intro buf off i h
    show (writeBytes (buf.set off b) (off + 1) rest).get? i = buf.get? i
    rw [ih (buf.set off b) (off + 1) i (by omega)]
    exact List.get?_set_ne b buf (by omega)

theorem get?_writeBytes_in : ∀ (data buf : List Nat) (off j : Nat),
    off + data.length ≤ buf.length → j < data.length →
    (writeBytes buf off data).get? (off + j) = data.get? j := by
  intro data
  induction data with
  | nil => intro buf off j _ hj; exact absurd hj (by simp)
  | cons b rest ih =>
    intro buf off j hlen hj
    cases j with
    | zero =>
      show (writeBytes (buf.set off b) (off + 1) rest).get? (off + 0) = some b
      rw [get?_writeBytes_lt rest (buf.set off b) (off + 1) (off + 0) (by omega)]
      have hofflt : off + 0 < buf.length := by simp at hlen ⊢; omega
      rw [show off + 0 = off from rfl]
      rw [List.get?_set_eq b off buf, List.get?_eq_get (by omega : off < buf.length)]
      rfl
    | succ j' =>
      show (writeBytes (buf.set off b) (off + 1) rest).get? (off + (j' + 1)) =
        (b :: rest).get? (j' + 1)
      have h1 : off + (j' + 1) = (off + 1) + j' := by omega
      rw [h1]
      have h2 : (off + 1) + rest.length ≤ (buf.set off b).length := by
        rw [List.length_set]; simp at hlen; omega
      rw [ih (buf.set off b) (off + 1) j' h2 (by simp at hj; omega)]
      rfl

theorem set_drop_of_lt (l : List Nat) (i a n : Nat) (h : i < n) :
    (l.set i a).drop n = l.drop n := by
  apply List.ext_get?
  intro m
  rw [List.get?_drop, List.get?_drop]
  exact List.get?_set_ne a l (by omega)

theorem drop_writeBytes : ∀ (data buf : List Nat) (off n : Nat),
    off + data.length ≤ n → (writeBytes buf off data).drop n = buf.drop n := by
  intro data
  induction data with
  | nil => intro buf off n _; rfl
  | cons b rest ih =>
    intro buf off n h
    show (writeBytes (buf.set off b) (off + 1) rest).drop n = buf.drop n
    rw [ih (buf.set off b) (off + 1) n (by simp at h; omega)]
    exact set_drop_of_lt buf off b n (by simp at h; omega)

theorem read_writeBytes : ∀ (data buf : List Nat) (off : Nat),
    off + data.length ≤ buf.length →
    ((writeBytes buf off data).drop off).take data.length = data := by
  intro data buf off hlen
  apply List.ext_get?
  intro j
  by_cases hj : j < data.length
  · rw [List.get?_take hj, List.get?_drop]
    exact get?_writeBytes_in data buf off j hlen hj
  · have h1 : data.get? j = none := List.get?_eq_none.mpr (by omega)
    have h2 : (((writeBytes buf off data).drop off).take data.length).get? j = none := by
      apply List.get?_eq_none.mpr
      rw [List.length_take]
      exact le_trans (min_le_left _ _) (by omega)
    rw [h1, h2]

theorem Enqueue_eq_of_full (rb : SPSCRingBuffer) (chunk : List Nat)
    (hc : rb.capacity - (rb.tail - rb.head) < chunk.length) :
    rb.Enqueue chunk = (false, rb) := by
  simp only [SPSCRingBuffer.Enqueue]
  rw [if_pos hc]

theorem Enqueue_eq_of_fit (rb : SPSCRingBuffer) (chunk : List Nat)
    (hc : ¬ rb.capacity - (rb.tail - rb.head) < chunk.length) :
    rb.Enqueue chunk = (true, ⟨rb.capacity,
      writeBytes
        (writeBytes rb.buffer (rb.tail &&& rb.mask)
          (chunk.take (min chunk.length (rb.capacity - (rb.tail &&& rb.mask))))) 0
        (chunk.drop (min chunk.length (rb.capacity - (rb.tail &&& rb.mask)))),
      rb.head, rb.tail + chunk.length⟩) := by
  simp only [SPSCRingBuffer.Enqueue]
  rw [if_neg hc]

theorem Dequeue_eq_of_empty (rb : SPSCRingBuffer) (sizeIn : Nat)
    (h : rb.tail - rb.head = 0) :
    rb.Dequeue sizeIn = ⟨false, [], sizeIn, rb⟩ := by
  simp only [SPSCRingBuffer.Dequeue]
  rw [if_pos h]

theorem Dequeue_eq_of_nonempty (rb : SPSCRingBuffer) (sizeIn : Nat)
    (h : ¬ rb.tail - rb.head = 0) :
    rb.Dequeue sizeIn = ⟨true,
      ((rb.buffer.drop (rb.head &&& rb.mask)).take
        (min (min sizeIn (rb.tail - rb.head)) (rb.capacity - (rb.head &&& rb.mask)))) ++
      (rb.buffer.take (min sizeIn (rb.tail - rb.head) -
        min (min sizeIn (rb.tail - rb.head)) (rb.capacity - (rb.head &&& rb.mask)))),
      min sizeIn (rb.tail - rb.head),
      ⟨rb.capacity, rb.buffer, rb.head + min sizeIn (rb.tail - rb.head), rb.tail⟩⟩ := by
  simp only [SPSCRingBuffer.Dequeue]
  rw [if_neg h]

/-- Claim C3: for every ring buffer state, `Enqueue(chunk, size)` returns
false and leaves the buffer state (head, tail, stored bytes) completely
unchanged whenever `size` exceeds the current free space
`capacity - (tail - head)`, and returns true whenever `size` is at most
the free space, including a request exactly equal to the free space. -/
theorem spsc_enqueue_free_space (rb : SPSCRingBuffer) (chunk : List Nat) :
    (rb.capacity - (rb.tail - rb.head) < chunk.length → rb.Enqueue chunk = (false, rb)) ∧
    (chunk.length ≤ rb.capacity - (rb.tail - rb.head) → (rb.Enqueue chunk).1 = true) := by
  constructor
  · intro h
    exact Enqueue_eq_of_full rb chunk h
  · intro h
    rw [Enqueue_eq_of_fit rb chunk (by omega)]

/-- Claim C10: when `Dequeue` returns false because the buffer is empty
(`tail - head = 0`), it performs no observable writes: no bytes are
written through the caller's chunk pointer, the by-reference size
parameter keeps exactly its original value, and the buffer's head and
tail cursors (indeed the whole state) are unchanged. -/
theorem spsc_dequeue_empty_frame (rb : SPSCRingBuffer) (sizeIn : Nat)
    (h : rb.tail - rb.head = 0) :
    rb.Dequeue sizeIn = ⟨false, [], sizeIn, rb⟩ :=
  Dequeue_eq_of_empty rb sizeIn h

theorem applyOp_inv (rb : SPSCRingBuffer) (op : RBOp) (h : rb.Inv) :
    (rb.applyOp op).Inv ∧ rb.head ≤ (rb.applyOp op).head ∧
    rb.tail ≤ (rb.applyOp op).tail ∧ (rb.applyOp op).capacity = rb.capacity := by
  cases op with
  | enq chunk =>
    show ((rb.Enqueue chunk).2).Inv ∧ rb.head ≤ ((rb.Enqueue chunk).2).head ∧
      rb.tail ≤ ((rb.Enqueue chunk).2).tail ∧ ((rb.Enqueue chunk).2).capacity = rb.capacity
    by_cases hc : rb.capacity - (rb.tail - rb.head) < chunk.length
    · rw [Enqueue_eq_of_full rb chunk hc]
      exact ⟨h, le_refl _, le_refl _, rfl⟩
    · rw [Enqueue_eq_of_fit rb chunk hc]
      refine ⟨⟨h.pow, ?_, ?_, ?_⟩, le_refl _, by dsimp only; omega, rfl⟩
      · dsimp only
        rw [writeBytes_length, writeBytes_length]
        exact h.len
      · have := h.hle
        dsimp only
        omega
      · have h1 := h.size_le
        have h2 := h.hle
        dsimp only
        omega
  | deq sizeIn =>
    show ((rb.Dequeue sizeIn).state).Inv ∧ rb.head ≤ ((rb.Dequeue sizeIn).state).head ∧
      rb.tail ≤ ((rb.Dequeue sizeIn).state).tail ∧
      ((rb.Dequeue sizeIn).state).capacity = rb.capacity
    by_cases hc : rb.tail - rb.head = 0
    · rw [Dequeue_eq_of_empty rb sizeIn hc]
      exact ⟨h, le_refl _, le_refl _, rfl⟩
    · rw [Dequeue_eq_of_nonempty rb sizeIn hc]
      refine ⟨⟨h.pow, h.len, ?_, ?_⟩, by dsimp only; omega, le_refl _, rfl⟩
      · have := h.hle
        dsimp only
        omega
      · have h1 := h.size_le
        have h2 := h.hle
        dsimp only
        omega

/-- Claim C2: for every sequence of Enqueue and Dequeue calls on a valid
ring buffer of capacity C, the cursor invariant `0 ≤ tail - head ≤ C`
holds after every operation (every prefix of a sequence is a sequence, so
the statement over all sequences covers every intermediate state), the
raw cursors only ever increase and are never wrapped (only their masked
index wraps), and `size()` never returns a value exceeding C. -/
theorem spsc_cursor_invariant (rb : SPSCRingBuffer) (ops : List RBOp) (h : rb.Inv) :
    (rb.applyOps ops).Inv ∧
    (rb.applyOps ops).size ≤ (rb.applyOps ops).capacity ∧
    rb.head ≤ (rb.applyOps ops).head ∧ rb.tail ≤ (rb.applyOps ops).tail ∧
    (rb.applyOps ops).capacity = rb.capacity := by
  induction ops generalizing rb with
  | nil => exact ⟨h, h.size_le, le_refl _, le_refl _, rfl⟩
  | cons op rest ih =>
    have hstep := applyOp_inv rb op h
    have hrest := ih (rb.applyOp op) hstep.1
    have hops : rb.applyOps (op :: rest) = (rb.applyOp op).applyOps rest := rfl
    rw [hops]
    refine ⟨hrest.1, hrest.2.1, ?_, ?_, ?_⟩
    · exact le_trans hstep.2.1 hrest.2.2.1
    · exact le_trans hstep.2.2.1 hrest.2.2.2.1
    · rw [hrest.2.2.2.2, hstep.2.2.2]

theorem ring_copy_roundtrip (buf chunk : List Nat) (index first : Nat)
    (hfirst : first = min chunk.length (buf.length - index))
    (hlt : chunk.length ≤ buf.length) (hidx : index < buf.length) :
    (((writeBytes (writeBytes buf index (chunk.take first)) 0 (chunk.drop first)).drop
        index).take first) ++
      ((writeBytes (writeBytes buf index (chunk.take first)) 0 (chunk.drop first)).take
        (chunk.length - first)) = chunk := by
  set d1 := chunk.take first with hd1
  set d2 := chunk.drop first with hd2
  set buf1 := writeBytes buf index d1 with hbuf1
  set buf2 := writeBytes buf1 0 d2 with hbuf2
  have hfirst_le_len : first ≤ chunk.length := by omega
  have hd1len : d1.length = first := by rw [hd1, List.length_take]; omega
  have hd2len : d2.length = chunk.length - first := by rw [hd2, List.length_drop]
  have hbuf1len : buf1.length = buf.length := by rw [hbuf1]; exact writeBytes_length d1 buf index
  have hrem : chunk.length - first ≤ index := by omega
  have hstep1 : buf2.drop index = buf1.drop index := by
    rw [hbuf2]; exact drop_writeBytes d2 buf1 0 index (by omega)
  have hseg1 : (buf1.drop index).take first = d1 := by
    have h := read_writeBytes d1 buf index (by omega)
    rw [hd1len] at h
    rw [hbuf1]
    exact h
  have hseg2 : buf2.take (chunk.length - first) = d2 := by
    have h := read_writeBytes d2 buf1 0 (by omega)
    rw [List.drop_zero, hd2len] at h
    rw [hbuf2]
    exact h
  rw [hstep1, hseg1, hseg2, hd1, hd2]
  exact List.take_append_drop first chunk

/-- Claim C1 (amended): for every byte sequence of length L with
1 ≤ L < C enqueued into an empty (head = tail) SPSCRingBuffer of
capacity C (a power of two), a subsequent Dequeue with a caller buffer
of capacity at least L returns true and reproduces exactly the original
L bytes in order, including when the write/read straddles the backing
array's wraparound boundary (e.g. capacity 16, tail at index 14, writing
5 bytes, as exercised by the witness).  The amendment: the original
claim quantified over L = 0 as well (where Dequeue finds the buffer
empty and returns false) and over non-empty start states (where Dequeue
returns earlier bytes first); see the counterexample. -/
theorem spsc_enqueue_dequeue_roundtrip (rb : SPSCRingBuffer) (chunk : List Nat)
    (sizeIn : Nat) (hinv : rb.Inv) (hempty : rb.head = rb.tail)
    (hpos : 0 < chunk.length) (hlt : chunk.length < rb.capacity)
    (hcap : chunk.length ≤ sizeIn) :
    (rb.Enqueue chunk).1 = true ∧
    ((rb.Enqueue chunk).2.Dequeue sizeIn).ok = true ∧
    ((rb.Enqueue chunk).2.Dequeue sizeIn).out = chunk ∧
    ((rb.Enqueue chunk).2.Dequeue sizeIn).sizeOut = chunk.length := by
  have hfit : ¬ rb.capacity - (rb.tail - rb.head) < chunk.length := by omega
  have hlen := hinv.len
  have hkey := ring_copy_roundtrip rb.buffer chunk (rb.tail &&& (rb.capacity - 1))
      (min chunk.length (rb.capacity - (rb.tail &&& (rb.capacity - 1))))
      (by rw [hlen]) (by omega)
      (by have := Nat.and_le_right (n := rb.tail) (m := rb.capacity - 1); omega)
  rw [Enqueue_eq_of_fit rb chunk hfit]
  dsimp only
  rw [Dequeue_eq_of_nonempty]
  · simp only [SPSCRingBuffer.mask]
    rw [hempty]
    have hsz : min sizeIn (rb.tail + chunk.length - rb.tail) = chunk.length := by omega
    rw [hsz]
    exact ⟨trivial, trivial, hkey, rfl⟩
  · dsimp only
    omega

/-- Claim C4: for every valid ring buffer state, `Dequeue(chunk, size)`
returns false exactly when the buffer is empty (`tail - head = 0`);
otherwise it returns true, copies up to the available byte count
`tail - head` into the chunk bounded by the caller-supplied capacity in
`size` (so exactly `min size (tail - head)` bytes are written), writes
the number of bytes actually copied back through the size reference, and
advances head by exactly the consumed amount, leaving tail and the
stored bytes unchanged. -/
theorem spsc_dequeue_spec (rb : SPSCRingBuffer) (sizeIn : Nat) (hinv : rb.Inv) :
    ((rb.Dequeue sizeIn).ok = false ↔ rb.tail - rb.head = 0) ∧
    (rb.tail - rb.head ≠ 0 →
      (rb.Dequeue sizeIn).ok = true ∧
      (rb.Dequeue sizeIn).sizeOut = min sizeIn (rb.tail - rb.head) ∧
      (rb.Dequeue sizeIn).out.length = min sizeIn (rb.tail - rb.head) ∧
      (rb.Dequeue sizeIn).state.head = rb.head + min sizeIn (rb.tail - rb.head) ∧
      (rb.Dequeue sizeIn).state.tail = rb.tail ∧
      (rb.Dequeue sizeIn).state.buffer = rb.buffer) := by
  have hC1 : 1 ≤ rb.capacity := by
    obtain ⟨k, hk⟩ := hinv.pow
    rw [hk]
    exact Nat.one_le_two_pow
  have hidx : rb.head &&& rb.mask ≤ rb.capacity - 1 := Nat.and_le_right
  have hlen := hinv.len
  have hsz := hinv.size_le
  constructor
  · constructor
    · intro hfalse
      by_contra hne
      rw [Dequeue_eq_of_nonempty rb sizeIn hne] at hfalse
      exact absurd hfalse (by simp)
    · intro h0
      rw [Dequeue_eq_of_empty rb sizeIn h0]
  · intro hne
    rw [Dequeue_eq_of_nonempty rb sizeIn hne]
    refine ⟨rfl, rfl, ?_, rfl, rfl, rfl⟩
    dsimp only
    rw [List.length_append, List.length_take, List.length_drop, List.length_take]
    omega

/-- Claim C5: for every Enqueue (that fits into free space) and every
Dequeue, each copied byte stays inside the backing array of length
`capacity`: the first segment, of length
`min(size, capacity - (cursor & mask))`, occupies positions from the
masked cursor index up to at most the end of the array, and the
remaining bytes are copied starting from offset 0 and fit inside the
array as well (the masked index itself is always in bounds). -/
theorem spsc_copy_bounds (rb : SPSCRingBuffer) (chunk : List Nat) (sizeIn : Nat)
    (hinv : rb.Inv) :
    (chunk.length ≤ rb.capacity - (rb.tail - rb.head) →
      (rb.tail &&& rb.mask) < rb.buffer.length ∧
      (rb.tail &&& rb.mask) + min chunk.length (rb.capacity - (rb.tail &&& rb.mask)) ≤
        rb.buffer.length ∧
      chunk.length - min chunk.length (rb.capacity - (rb.tail &&& rb.mask)) ≤
        rb.buffer.length) ∧
    ((rb.head &&& rb.mask) < rb.buffer.length ∧
     (rb.head &&& rb.mask) +
       min (min sizeIn (rb.tail - rb.head)) (rb.capacity - (rb.head &&& rb.mask)) ≤
       rb.buffer.length ∧
     min sizeIn (rb.tail - rb.head) -
       min (min sizeIn (rb.tail - rb.head)) (rb.capacity - (rb.head &&& rb.mask)) ≤
       rb.buffer.length) := by
  have hC1 : 1 ≤ rb.capacity := by
    obtain ⟨k, hk⟩ := hinv.pow
    rw [hk]
    exact Nat.one_le_two_pow
  have hidxt : rb.tail &&& rb.mask ≤ rb.capacity - 1 := Nat.and_le_right
  have hidxh : rb.head &&& rb.mask ≤ rb.capacity - 1 := Nat.and_le_right
  have hlen := hinv.len
  have hsz := hinv.size_le
  constructor
  · intro hfit
    refine ⟨by omega, by omega, by omega⟩
  · refine ⟨by omega, by omega, by omega⟩

/-- Claim C8: a newly constructed SpinLock is in the free (unlocked)
state, and `TryLock` is exactly one compare-and-swap attempt on the flag:
it returns true and the lock becomes held exactly when the lock was free
at the attempt, and it returns false leaving the held state unchanged
when the lock was already held.  The two equations enumerate both
possible flag states, so they cover every attempt. -/
theorem spinlock_new_tryLock :
    SpinLock.new = false ∧
    SpinLock.tryLock false = (true, true) ∧
    SpinLock.tryLock true = (false, true) := by
  refine ⟨rfl, rfl, rfl⟩

theorem tryLockSpinAux_iff (env : Nat → Bool) :
    ∀ (n k : Nat), SpinLock.tryLockSpinAux env k n = true ↔
      ∃ j, j < n ∧ (SpinLock.tryLock (env (k + j))).1 = true := by
  intro n
  induction n with
  | zero =>
    intro k
    constructor
    · intro h
      exact absurd h (by simp [SpinLock.tryLockSpinAux])
    · intro ⟨j, hj, _⟩
      omega
  | succ m ih =>
    intro k
    constructor
    · intro h
      by_cases hk : (SpinLock.tryLock (env k)).1 = true
      · exact ⟨0, by omega, by rw [Nat.add_zero]; exact hk⟩
      · have heq : SpinLock.tryLockSpinAux env k (m + 1) =
            SpinLock.tryLockSpinAux env (k + 1) m := by
          show (if (SpinLock.tryLock (env k)).1 then true
            else SpinLock.tryLockSpinAux env (k + 1) m) = _
          rw [if_neg hk]
        rw [heq] at h
        obtain ⟨j, hj, hsucc⟩ := (ih (k + 1)).mp h
        exact ⟨j + 1, by omega, by rw [show k + (j + 1) = (k + 1) + j from by omega]; exact hsucc⟩
    · intro ⟨j, hj, hsucc⟩
      by_cases hk : (SpinLock.tryLock (env k)).1 = true
      · show (if (SpinLock.tryLock (env k)).1 then true
          else SpinLock.tryLockSpinAux env (k + 1) m) = true
        rw [if_pos hk]
      · show (if (SpinLock.tryLock (env k)).1 then true
          else SpinLock.tryLockSpinAux env (k + 1) m) = true
        rw [if_neg hk]
        apply (ih (k + 1)).mpr
        have hj0 : j ≠ 0 := by
          intro h0
          rw [h0, Nat.add_zero] at hsucc
          exact hk hsucc
        exact ⟨j - 1, by omega, by rw [show (k + 1) + (j - 1) = k + j from by omega]; exact hsucc⟩

/-- Claim C9: for every spin budget `spin`, `TryLockSpin(spin)` repeats
`TryLock` up to `spin` times (attempt k observing the flag state
`env k`): it returns true exactly when one of the at most `spin`
attempts succeeds (returning as soon as that happens, by construction of
the loop), and otherwise returns false after exhausting the budget. -/
theorem spinlock_tryLockSpin_budget (env : Nat → Bool) (spin : Nat) :
    SpinLock.tryLockSpin env spin = true ↔
      ∃ k, k < spin ∧ (SpinLock.tryLock (env k)).1 = true := by
  have h := tryLockSpinAux_iff env spin 0
  simpa using h

theorem get?_some_lt {α : Type} {l : List α} {i : Nat} {a : α}
    (h : l.get? i = some a) : i < l.length := by
  by_contra hge
  rw [List.get?_eq_none.mpr (by omega)] at h
  exact absurd h (by simp)

theorem chainFrom_zero {T : Type} (heap : List (MPSCNode T)) (p : Nat) :
    MPSCLinkedQueue.chainFrom heap p 0 = [] := rfl

theorem chainFrom_succ_of_none {T : Type} {heap : List (MPSCNode T)} {p : Nat}
    (fuel : Nat) (h1 : heap.get? p = none) :
    MPSCLinkedQueue.chainFrom heap p (fuel + 1) = [] := by
  simp only [MPSCLinkedQueue.chainFrom, h1]

theorem chainFrom_succ_of_last {T : Type} {heap : List (MPSCNode T)} {p : Nat}
    {node : MPSCNode T} (fuel : Nat) (h1 : heap.get? p = some node)
    (h2 : node.next = none) :
    MPSCLinkedQueue.chainFrom heap p (fuel + 1) = [] := by
  simp only [MPSCLinkedQueue.chainFrom, h1, h2]

theorem chainFrom_succ_of_get {T : Type} {heap : List (MPSCNode T)} {p : Nat}
    {node : MPSCNode T} {nid : Nat} {nextNode : MPSCNode T} (fuel : Nat)
    (h1 : heap.get? p = some node) (h2 : node.next = some nid)
    (h3 : heap.get? nid = some nextNode) :
    MPSCLinkedQueue.chainFrom heap p (fuel + 1) =
      nextNode.value :: MPSCLinkedQueue.chainFrom heap nid fuel := by
  simp only [MPSCLinkedQueue.chainFrom, h1, h2, h3]

theorem mpscReaches_le {T : Type} {heap : List (MPSCNode T)} {p r : Nat}
    (hmono : ∀ i node j, heap.get? i = some node → node.next = some j →
      i < j ∧ j < heap.length)
    (h : MPSCReaches heap p r) : p ≤ r := by
  induction h with
  | refl p => exact le_refl p
  | step hget hnext _ ih =>
    have := hmono _ _ _ hget hnext
    omega

theorem mpscReaches_trans {T : Type} {heap : List (MPSCNode T)} {p q r : Nat}
    (h1 : MPSCReaches heap p q) (h2 : MPSCReaches heap q r) :
    MPSCReaches heap p r := by
  induction h1 with
  | refl p => exact h2
  | step hget hnext _ ih => exact MPSCReaches.step hget hnext (ih h2)

theorem mpscReaches_tail_step {T : Type} {heap : List (MPSCNode T)} :
    ∀ {p r : Nat} {node : MPSCNode T} {nid : Nat}, MPSCReaches heap p r →
      heap.get? p = some node → node.next = some nid →
      (∀ tn, heap.get? r = some tn → tn.next = none) → MPSCReaches heap nid r := by
  intro p r node nid hreach
  cases hreach with
  | refl =>
    intro hget hnext hlastall
    have hnone := hlastall node hget
    rw [hnone] at hnext
    exact absurd hnext (by simp)
  | step hget' hnext' hrest =>
    intro hget hnext hlastall
    rw [hget] at hget'
    injection hget' with he
    rw [← he] at hnext'
    rw [hnext] at hnext'
    injection hnext' with he2
    rw [he2]
    exact hrest

theorem mpsc_wf_init (T : Type) [Inhabited T] : (MPSCLinkedQueue.init T).Wf := by
  refine ⟨?_, ?_, ?_, ?_, ?_⟩
  · show 0 < 1
    omega
  · show 0 < 1
    omega
  · intro i node j hget hnext
    cases i with
    | zero =>
      have hg : (MPSCLinkedQueue.init T).heap.get? 0 = some ⟨default, none⟩ := rfl
      rw [hg] at hget
      injection hget with h
      rw [← h] at hnext
      exact absurd hnext (by simp)
    | succ i' =>
      have hg : (MPSCLinkedQueue.init T).heap.get? (i' + 1) = none := rfl
      rw [hg] at hget
      exact absurd hget (by simp)
  · intro node hget
    have hg : (MPSCLinkedQueue.init T).heap.get? (MPSCLinkedQueue.init T).tail =
        some ⟨default, none⟩ := rfl
    rw [hg] at hget
    injection hget with h
    rw [← h]
  · exact MPSCReaches.refl 0

theorem Enqueue_eq_true {T : Type} (q : MPSCLinkedQueue T) (x : T)
    {tnode : MPSCNode T} (htnode : q.heap.get? q.tail = some tnode)
    (htail : q.tail < q.heap.length) :
    q.Enqueue x true = (true, ⟨(q.heap ++ [MPSCNode.mk x none]).set q.tail
      (MPSCNode.mk tnode.value (some q.heap.length)), q.head, q.heap.length⟩) := by
  simp only [MPSCLinkedQueue.Enqueue, if_true, List.get?_append htail, htnode]

theorem chainFrom_fuel_congr {T : Type} (heap : List (MPSCNode T))
    (hmono : ∀ i node j, heap.get? i = some node → node.next = some j →
      i < j ∧ j < heap.length) :
    ∀ (fuel1 fuel2 p : Nat), heap.length - p ≤ fuel1 → heap.length - p ≤ fuel2 →
      MPSCLinkedQueue.chainFrom heap p fuel1 = MPSCLinkedQueue.chainFrom heap p fuel2 := by
  intro fuel1
  induction fuel1 with
  | zero =>
    intro fuel2 p h1 h2
    have hnone : heap.get? p = none := List.get?_eq_none.mpr (by omega)
    cases fuel2 with
    | zero => rfl
    | succ g => rw [chainFrom_zero, chainFrom_succ_of_none g hnone]
  | succ f ih =>
    intro fuel2 p h1 h2
    cases hp : heap.get? p with
    | none =>
      cases fuel2 with
      | zero => rw [chainFrom_succ_of_none f hp, chainFrom_zero]
      | succ g => rw [chainFrom_succ_of_none f hp, chainFrom_succ_of_none g hp]
    | some node =>
      have hplt : p < heap.length := get?_some_lt hp
      cases hn : node.next with
      | none =>
        cases fuel2 with
        | zero => omega
        | succ g => rw [chainFrom_succ_of_last f hp hn, chainFrom_succ_of_last g hp hn]
      | some nid =>
        have hlt := hmono p node nid hp hn
        cases fuel2 with
        | zero => omega
        | succ g =>
          obtain ⟨nextNode, hnn⟩ : ∃ nn, heap.get? nid = some nn :=
            ⟨_, List.get?_eq_get hlt.2⟩
          rw [chainFrom_succ_of_get f hp hn hnn, chainFrom_succ_of_get g hp hn hnn]
          exact congrArg _ (ih g nid (by omega) (by omega))

theorem mpscReaches_lift {T : Type} {heap : List (MPSCNode T)} {tnode : MPSCNode T}
    (x : T) :
    ∀ (p tl : Nat), MPSCReaches heap p tl → heap.get? tl = some tnode →
      tnode.next = none →
      MPSCReaches ((heap ++ [MPSCNode.mk x none]).set tl (MPSCNode.mk tnode.value (some heap.length))) p tl := by
  intro p tl hreach
  induction hreach with
  | refl p =>
    intro _ _
    exact MPSCReaches.refl p
  | @step p q r node hget hnext hrest ih =>
    intro htl hlast
    have hp_lt : p < heap.length := get?_some_lt hget
    have hp_ne : p ≠ r := by
      intro he
      rw [he, htl] at hget
      injection hget with he2
      rw [he2] at hlast
      rw [hlast] at hnext
      exact absurd hnext (by simp)
    have hget2 : ((heap ++ [MPSCNode.mk x none]).set r
        (MPSCNode.mk tnode.value (some heap.length))).get? p = some node := by
      rw [List.get?_set_ne _ _ (fun h => hp_ne h.symm), List.get?_append hp_lt]
      exact hget
    exact MPSCReaches.step hget2 hnext (ih htl hlast)

theorem chainFrom_set_snoc {T : Type} {heap : List (MPSCNode T)} {tnode : MPSCNode T}
    (x : T)
    (hmono : ∀ i node j, heap.get? i = some node → node.next = some j →
      i < j ∧ j < heap.length) :
    ∀ (p tl : Nat), MPSCReaches heap p tl → ∀ (fuel : Nat),
      heap.get? tl = some tnode → tnode.next = none → heap.length - p ≤ fuel →
      MPSCLinkedQueue.chainFrom
          ((heap ++ [MPSCNode.mk x none]).set tl (MPSCNode.mk tnode.value (some heap.length)))
          p (fuel + 1) =
        MPSCLinkedQueue.chainFrom heap p fuel ++ [x] := by
  intro p tl hreach
  induction hreach with
  | refl p =>
    intro fuel htl hlast hfuel
    have hp_lt : p < heap.length := get?_some_lt htl
    have hget2_tl : ((heap ++ [MPSCNode.mk x none]).set p
        (MPSCNode.mk tnode.value (some heap.length))).get? p =
        some (MPSCNode.mk tnode.value (some heap.length)) := by
      rw [List.get?_set_eq, List.get?_append hp_lt, htl]
      rfl
    have hget2_new : ((heap ++ [MPSCNode.mk x none]).set p
        (MPSCNode.mk tnode.value (some heap.length))).get? heap.length =
        some (MPSCNode.mk x none) := by
      rw [List.get?_set_ne _ _ (by omega), List.get?_concat_length]
    obtain ⟨f, rfl⟩ : ∃ f, fuel = f + 1 := ⟨fuel - 1, by omega⟩
    rw [chainFrom_succ_of_get (f + 1) hget2_tl rfl hget2_new]
    rw [chainFrom_succ_of_last f hget2_new rfl]
    rw [chainFrom_succ_of_last f htl hlast]
    rfl
  | @step p q r node hget hnext hrest ih =>
    intro fuel htl hlast hfuel
    have htl_lt : r < heap.length := get?_some_lt htl
    have hpq := hmono p node q hget hnext
    have hp_lt : p < heap.length := get?_some_lt hget
    have hp_ne : p ≠ r := by
      intro he
      rw [he, htl] at hget
      injection hget with he2
      rw [he2] at hlast
      rw [hlast] at hnext
      exact absurd hnext (by simp)
    have hget2_p : ((heap ++ [MPSCNode.mk x none]).set r
        (MPSCNode.mk tnode.value (some heap.length))).get? p = some node := by
      rw [List.get?_set_ne _ _ (fun h => hp_ne h.symm), List.get?_append hp_lt]
      exact hget
    obtain ⟨nq, hnq⟩ : ∃ nn, heap.get? q = some nn := ⟨_, List.get?_eq_get hpq.2⟩
    obtain ⟨f, rfl⟩ : ∃ f, fuel = f + 1 := ⟨fuel - 1, by omega⟩
    rw [chainFrom_succ_of_get f hget hnext hnq]
    by_cases hq : q = r
    · have hget2_q : ((heap ++ [MPSCNode.mk x none]).set r
          (MPSCNode.mk tnode.value (some heap.length))).get? q =
          some (MPSCNode.mk tnode.value (some heap.length)) := by
        rw [hq, List.get?_set_eq, List.get?_append htl_lt, htl]
        rfl
      rw [chainFrom_succ_of_get (f + 1) hget2_p hnext hget2_q]
      have hnqt : tnode = nq := by
        rw [hq, htl] at hnq
        exact Option.some.inj hnq
      rw [ih f htl hlast (by omega)]
      rw [← hnqt]
      rfl
    · have hget2_q : ((heap ++ [MPSCNode.mk x none]).set r
          (MPSCNode.mk tnode.value (some heap.length))).get? q = some nq := by
        rw [List.get?_set_ne _ _ (fun h => hq h.symm), List.get?_append hpq.2]
        exact hnq
      rw [chainFrom_succ_of_get (f + 1) hget2_p hnext hget2_q]
      rw [ih f htl hlast (by omega)]
      rfl

theorem Enqueue_wf_toList {T : Type} (q : MPSCLinkedQueue T) (x : T) (hwf : q.Wf) :
    ((q.Enqueue x true).2).Wf ∧ ((q.Enqueue x true).2).toList = q.toList ++ [x] := by
  obtain ⟨tnode, htnode⟩ : ∃ t, q.heap.get? q.tail = some t :=
    ⟨_, List.get?_eq_get hwf.tail_lt⟩
  have hlast := hwf.tail_last tnode htnode
  rw [Enqueue_eq_true q x htnode hwf.tail_lt]
  dsimp only
  have hlen2 : ((q.heap ++ [MPSCNode.mk x none]).set q.tail
      (MPSCNode.mk tnode.value (some q.heap.length))).length = q.heap.length + 1 := by
    rw [List.length_set, List.length_append]
    rfl
  constructor
  · refine ⟨?_, ?_, ?_, ?_, ?_⟩
    · dsimp only
      rw [hlen2]
      have := hwf.head_lt
      omega
    · dsimp only
      rw [hlen2]
      omega
    · intro i node j hget hnext
      rw [hlen2]
      by_cases hi : i = q.tail
      · have hget_tl : ((q.heap ++ [MPSCNode.mk x none]).set q.tail
            (MPSCNode.mk tnode.value (some q.heap.length))).get? i =
            some (MPSCNode.mk tnode.value (some q.heap.length)) := by
          rw [hi, List.get?_set_eq, List.get?_append hwf.tail_lt, htnode]
          rfl
        rw [hget_tl] at hget
        injection hget with h
        rw [← h] at hnext
        injection hnext with h2
        have := hwf.tail_lt
        rw [hi]
        omega
      · rw [List.get?_set_ne _ _ (fun h => hi h.symm)] at hget
        by_cases hi2 : i < q.heap.length
        · rw [List.get?_append hi2] at hget
          have := hwf.next_mono i node j hget hnext
          omega
        · by_cases hi3 : i = q.heap.length
          · rw [hi3, List.get?_concat_length] at hget
            injection hget with h
            rw [← h] at hnext
            exact absurd hnext (by simp)
          · rw [List.get?_eq_none.mpr
              (by rw [List.length_append]; simp; omega)] at hget
            exact absurd hget (by simp)
    · intro node hget
      have hg : ((q.heap ++ [MPSCNode.mk x none]).set q.tail
          (MPSCNode.mk tnode.value (some q.heap.length))).get? q.heap.length =
          some (MPSCNode.mk x none) := by
        rw [List.get?_set_ne _ _ (by have := hwf.tail_lt; omega), List.get?_concat_length]
      rw [hg] at hget
      injection hget with h
      rw [← h]
    · have hlift := mpscReaches_lift x q.head q.tail hwf.reach htnode hlast
      have hget2_tl : ((q.heap ++ [MPSCNode.mk x none]).set q.tail
          (MPSCNode.mk tnode.value (some q.heap.length))).get? q.tail =
          some (MPSCNode.mk tnode.value (some q.heap.length)) := by
        rw [List.get?_set_eq, List.get?_append hwf.tail_lt, htnode]
        rfl
      exact mpscReaches_trans hlift
        (MPSCReaches.step hget2_tl rfl (MPSCReaches.refl q.heap.length))
  · show MPSCLinkedQueue.chainFrom _ q.head
        ((q.heap ++ [MPSCNode.mk x none]).set q.tail
          (MPSCNode.mk tnode.value (some q.heap.length))).length = _
    rw [hlen2]
    exact chainFrom_set_snoc x hwf.next_mono q.head q.tail hwf.reach q.heap.length
      htnode hlast (by omega)

theorem Dequeue_wf_toList {T : Type} (q : MPSCLinkedQueue T) (hwf : q.Wf) :
    (q.toList = [] → q.Dequeue = (none, q)) ∧
    (∀ v rest, q.toList = v :: rest →
      (q.Dequeue).1 = some v ∧ ((q.Dequeue).2).Wf ∧ ((q.Dequeue).2).toList = rest) := by
  obtain ⟨sentinel, hsent⟩ : ∃ s, q.heap.get? q.head = some s :=
    ⟨_, List.get?_eq_get hwf.head_lt⟩
  obtain ⟨Lm, hLm⟩ : ∃ m, q.heap.length = m + 1 :=
    ⟨q.heap.length - 1, by have := hwf.head_lt; omega⟩
  cases hnext : sentinel.next with
  | none =>
    have htl : q.toList = [] := by
      show MPSCLinkedQueue.chainFrom q.heap q.head q.heap.length = []
      rw [hLm]
      exact chainFrom_succ_of_last Lm hsent hnext
    have hdq : q.Dequeue = (none, q) := by
      simp only [MPSCLinkedQueue.Dequeue, hsent, hnext]
    constructor
    · intro _
      exact hdq
    · intro v rest hcons
      rw [htl] at hcons
      exact absurd hcons (by simp)
  | some nid =>
    have hmono := hwf.next_mono q.head sentinel nid hsent hnext
    obtain ⟨node, hnode⟩ : ∃ nn, q.heap.get? nid = some nn :=
      ⟨_, List.get?_eq_get hmono.2⟩
    have hdq : q.Dequeue = (some node.value, ⟨q.heap, nid, q.tail⟩) := by
      simp only [MPSCLinkedQueue.Dequeue, hsent, hnext, hnode]
    have htl : q.toList = node.value :: MPSCLinkedQueue.chainFrom q.heap nid Lm := by
      show MPSCLinkedQueue.chainFrom q.heap q.head q.heap.length = _
      rw [hLm]
      exact chainFrom_succ_of_get Lm hsent hnext hnode
    constructor
    · intro hnil
      rw [htl] at hnil
      exact absurd hnil (by simp)
    · intro v rest hcons
      rw [htl] at hcons
      injection hcons with hv hrest
      refine ⟨?_, ?_, ?_⟩
      · rw [hdq, hv]
      · rw [hdq]
        dsimp only
        refine ⟨hmono.2, hwf.tail_lt, hwf.next_mono, hwf.tail_last, ?_⟩
        exact mpscReaches_tail_step hwf.reach hsent hnext
          (fun tn htn => hwf.tail_last tn htn)
      · rw [hdq]
        show MPSCLinkedQueue.chainFrom q.heap nid q.heap.length = rest
        rw [← hrest]
        exact chainFrom_fuel_congr q.heap hwf.next_mono q.heap.length Lm nid
          (by omega) (by omega)

theorem enqueueAll_wf_toList {T : Type} :
    ∀ (items : List T) (q : MPSCLinkedQueue T), q.Wf →
      (q.enqueueAll items).Wf ∧ (q.enqueueAll items).toList = q.toList ++ items := by
  intro items
  induction items with
  | nil =>
    intro q hwf
    exact ⟨hwf, by simp [MPSCLinkedQueue.enqueueAll]⟩
  | cons x rest ih =>
    intro q hwf
    have h1 := Enqueue_wf_toList q x hwf
    have h2 := ih ((q.Enqueue x true).2) h1.1
    have hfold : q.enqueueAll (x :: rest) = ((q.Enqueue x true).2).enqueueAll rest := rfl
    rw [hfold]
    refine ⟨h2.1, ?_⟩
    rw [h2.2, h1.2]
    simp

theorem dequeueAll_toList {T : Type} :
    ∀ (n : Nat) (q : MPSCLinkedQueue T), q.Wf → q.toList.length = n →
      q.dequeueAll n = q.toList := by
  intro n
  induction n with
  | zero =>
    intro q _ hlen
    have h0 : q.toList = [] := List.eq_nil_of_length_eq_zero hlen
    rw [h0]
    rfl
  | succ m ih =>
    intro q hwf hlen
    cases hcons : q.toList with
    | nil =>
      rw [hcons] at hlen
      simp at hlen
    | cons v rest =>
      have hd := (Dequeue_wf_toList q hwf).2 v rest hcons
      cases hq : q.Dequeue with
      | mk r1 q2 =>
        rw [hq] at hd
        dsimp only at hd
        simp only [MPSCLinkedQueue.dequeueAll, hq, hd.1]
        have hlr : q2.toList.length = m := by
          rw [hd.2.2]
          rw [hcons] at hlen
          simp at hlen
          omega
        rw [ih q2 hd.2.1 hlr, hd.2.2]

/-- Claim C6: for a single producer enqueuing the items
`[i0, i1, ..., iN]` into an MPSCLinkedQueue (each node allocation
succeeding), a single consumer dequeues them in exactly that order: the
k-th successful Dequeue yields the k-th enqueued item (the list of the
first N+1 dequeued values equals the enqueued list). -/
theorem mpsc_fifo_order {T : Type} [Inhabited T] (items : List T) :
    ((MPSCLinkedQueue.init T).enqueueAll items).dequeueAll items.length = items := by
  have hinit := mpsc_wf_init T
  have htl0 : (MPSCLinkedQueue.init T).toList = [] := rfl
  have h1 := enqueueAll_wf_toList items (MPSCLinkedQueue.init T) hinit
  have h2 : ((MPSCLinkedQueue.init T).enqueueAll items).toList = items := by
    rw [h1.2, htl0]
    simp
  rw [dequeueAll_toList items.length _ h1.1 (by rw [h2]), h2]

/-- Witness for claim C6: a concrete producer run `[10, 20, 30]` is
dequeued in exactly that order. -/
theorem mpsc_fifo_order_witness :
    ((MPSCLinkedQueue.init Nat).enqueueAll [10, 20, 30]).dequeueAll 3 = [10, 20, 30] :=
  mpsc_fifo_order [10, 20, 30]

/-- Claim C7: `MPSCLinkedQueue::Enqueue(item)` allocates a new node
holding a copy of `item` with its next pointer cleared, and returns
false only when node allocation fails; whenever allocation succeeds it
returns true — it never fails for any other reason (the result equals
the allocation outcome for every queue state and item). -/
theorem mpsc_enqueue_alloc {T : Type} (q : MPSCLinkedQueue T) (item : T)
    (allocOk : Bool) (htail : q.tail < q.heap.length) :
    ((q.Enqueue item allocOk).1 = allocOk) ∧
    (allocOk = true →
      ((q.Enqueue item allocOk).2).heap.get? q.heap.length =
        some (MPSCNode.mk item none)) := by
  constructor
  · cases allocOk with
    | false => rfl
    | true => rfl
  · intro hok
    subst hok
    obtain ⟨tnode, htnode⟩ : ∃ t, q.heap.get? q.tail = some t :=
      ⟨_, List.get?_eq_get htail⟩
    rw [Enqueue_eq_true q item htnode htail]
    dsimp only
    rw [List.get?_set_ne _ _ (by omega), List.get?_concat_length]

/-- Witness for claim C7: enqueuing 5 into the freshly created queue
returns the allocation outcome (true on success, false on failure) and
stores the node `(5, null)` at the fresh heap slot. -/
theorem mpsc_enqueue_alloc_witness :
    ((MPSCLinkedQueue.init Nat).tail < (MPSCLinkedQueue.init Nat).heap.length) ∧
    ((MPSCLinkedQueue.init Nat).Enqueue 5 true).1 = true ∧
    ((MPSCLinkedQueue.init Nat).Enqueue 5 false).1 = false ∧
    (((MPSCLinkedQueue.init Nat).Enqueue 5 true).2).heap.get? 1 =
      some (MPSCNode.mk 5 none) := by
  refine ⟨by decide, ?_, ?_, ?_⟩
  · exact (mpsc_enqueue_alloc (MPSCLinkedQueue.init Nat) 5 true (by decide)).1
  · exact (mpsc_enqueue_alloc (MPSCLinkedQueue.init Nat) 5 false (by decide)).1
  · exact (mpsc_enqueue_alloc (MPSCLinkedQueue.init Nat) 5 true (by decide)).2 rfl

/-- Counterexample to claim C1 as originally stated.  First input: the
empty byte sequence (length 0 < capacity 16) enqueued into an empty
buffer — the subsequent Dequeue finds the buffer empty and returns
false, not true.  Second input: a buffer already holding one stale byte
(9) when the one-byte sequence [5] is enqueued — the subsequent Dequeue
returns true but yields [9, 5], not the original sequence [5]. -/
theorem spsc_roundtrip_claim_counterexample :
    ((((⟨16, List.replicate 16 0, 14, 14⟩ : SPSCRingBuffer).Enqueue []).2.Dequeue
        16).ok = false) ∧
    ((((⟨16, (List.replicate 16 0).set 0 9, 0, 1⟩ : SPSCRingBuffer).Enqueue
        [5]).2.Dequeue 16).ok = true ∧
     (((⟨16, (List.replicate 16 0).set 0 9, 0, 1⟩ : SPSCRingBuffer).Enqueue
        [5]).2.Dequeue 16).out ≠ [5]) := by
  refine ⟨by decide, by decide, by decide⟩

/-- Witness for claim C1: capacity 16, both cursors at raw position 14,
writing 5 bytes — the copy wraps around the end of the backing array and
the dequeue reproduces the bytes exactly. -/
theorem spsc_enqueue_dequeue_roundtrip_witness :
    0 < [1, 2, 3, 4, 5].length ∧ [1, 2, 3, 4, 5].length < 16 ∧
    (((⟨16, List.replicate 16 0, 14, 14⟩ : SPSCRingBuffer).Enqueue
        [1, 2, 3, 4, 5]).2.Dequeue 16).out = [1, 2, 3, 4, 5] :=
  ⟨by decide, by decide,
    (spsc_enqueue_dequeue_roundtrip ⟨16, List.replicate 16 0, 14, 14⟩
      [1, 2, 3, 4, 5] 16 ⟨⟨4, by decide⟩, by decide, by decide, by decide⟩ rfl
      (by decide) (by decide) (by decide)).2.2.1⟩

/-- Witness for claim C2: the spec's concrete scenario on a capacity-8
buffer (enqueue 6, enqueue 3 rejected, dequeue 4, enqueue 3) ends with
`size()` within the capacity bound. -/
theorem spsc_cursor_invariant_witness :
    ((⟨8, List.replicate 8 0, 0, 0⟩ : SPSCRingBuffer).applyOps
      [RBOp.enq [1, 2, 3, 4, 5, 6], RBOp.enq [7, 8, 9], RBOp.deq 4,
        RBOp.enq [7, 8, 9]]).size ≤
    ((⟨8, List.replicate 8 0, 0, 0⟩ : SPSCRingBuffer).applyOps
      [RBOp.enq [1, 2, 3, 4, 5, 6], RBOp.enq [7, 8, 9], RBOp.deq 4,
        RBOp.enq [7, 8, 9]]).capacity :=
  (spsc_cursor_invariant ⟨8, List.replicate 8 0, 0, 0⟩
    [RBOp.enq [1, 2, 3, 4, 5, 6], RBOp.enq [7, 8, 9], RBOp.deq 4,
      RBOp.enq [7, 8, 9]]
    ⟨⟨3, by decide⟩, by decide, by decide, by decide⟩).2.1

/-- Witness for claim C3: with 6 of 8 bytes occupied (free space 2), a
3-byte enqueue fails leaving the state untouched, and a 2-byte enqueue —
a request exactly equal to the free space — succeeds. -/
theorem spsc_enqueue_free_space_witness :
    (⟨8, List.replicate 8 0, 0, 6⟩ : SPSCRingBuffer).Enqueue [1, 2, 3] =
      (false, ⟨8, List.replicate 8 0, 0, 6⟩) ∧
    ((⟨8, List.replicate 8 0, 0, 6⟩ : SPSCRingBuffer).Enqueue [1, 2]).1 = true :=
  ⟨(spsc_enqueue_free_space ⟨8, List.replicate 8 0, 0, 6⟩ [1, 2, 3]).1 (by decide),
   (spsc_enqueue_free_space ⟨8, List.replicate 8 0, 0, 6⟩ [1, 2]).2 (by decide)⟩

/-- Witness for claim C4: with 4 bytes available and a caller buffer of
capacity 3, Dequeue succeeds, reports 3 consumed bytes, and advances
head by exactly 3. -/
theorem spsc_dequeue_spec_witness :
    ((⟨8, List.replicate 8 0, 2, 6⟩ : SPSCRingBuffer).Dequeue 3).ok = true ∧
    ((⟨8, List.replicate 8 0, 2, 6⟩ : SPSCRingBuffer).Dequeue 3).sizeOut =
      min 3 (6 - 2) ∧
    ((⟨8, List.replicate 8 0, 2, 6⟩ : SPSCRingBuffer).Dequeue 3).state.head =
      2 + min 3 (6 - 2) := by
  have h := spsc_dequeue_spec ⟨8, List.replicate 8 0, 2, 6⟩ 3
    ⟨⟨3, by decide⟩, by decide, by decide, by decide⟩
  exact ⟨(h.2 (by decide)).1, (h.2 (by decide)).2.1, (h.2 (by decide)).2.2.2.1⟩

/-- Witness for claim C5: in the wraparound scenario (capacity 16, tail
at raw position 14, 5-byte chunk) the masked index is in bounds and both
copy segments fit inside the backing array. -/
theorem spsc_copy_bounds_witness :
    [1, 2, 3, 4, 5].length ≤
      (⟨16, List.replicate 16 0, 14, 14⟩ : SPSCRingBuffer).capacity -
        ((⟨16, List.replicate 16 0, 14, 14⟩ : SPSCRingBuffer).tail -
          (⟨16, List.replicate 16 0, 14, 14⟩ : SPSCRingBuffer).head) ∧
    (((⟨16, List.replicate 16 0, 14, 14⟩ : SPSCRingBuffer).tail &&&
        (⟨16, List.replicate 16 0, 14, 14⟩ : SPSCRingBuffer).mask) +
      min [1, 2, 3, 4, 5].length
        ((⟨16, List.replicate 16 0, 14, 14⟩ : SPSCRingBuffer).capacity -
          ((⟨16, List.replicate 16 0, 14, 14⟩ : SPSCRingBuffer).tail &&&
            (⟨16, List.replicate 16 0, 14, 14⟩ : SPSCRingBuffer).mask)) ≤
      (⟨16, List.replicate 16 0, 14, 14⟩ : SPSCRingBuffer).buffer.length) := by
  have h := spsc_copy_bounds ⟨16, List.replicate 16 0, 14, 14⟩ [1, 2, 3, 4, 5] 16
    ⟨⟨4, by decide⟩, by decide, by decide, by decide⟩
  exact ⟨by decide, (h.1 (by decide)).2.1⟩

/-- Witness for claim C10: dequeuing from an empty buffer (both cursors
at raw position 14) returns false, writes no bytes, preserves the
caller's size value 4, and leaves the state untouched. -/
theorem spsc_dequeue_empty_frame_witness :
    (⟨16, List.replicate 16 0, 14, 14⟩ : SPSCRingBuffer).Dequeue 4 =
      ⟨false, [], 4, ⟨16, List.replicate 16 0, 14, 14⟩⟩ :=
  spsc_dequeue_empty_frame ⟨16, List.replicate 16 0, 14, 14⟩ 4 rfl
